import Mathlib

/-!
Verification model for the firedoc repository (a typed document-mapping layer
over the Firestore document database).

The embedding mirrors the three source variants:
* `src/src/FireDoc.ts` — class `FireDoc` plus the `registerFireDoc` binder
  (its `save` passes `{merge: onlyChanges}` to the database write);
* `src/unnamed/part_000` — class `Main` plus a binder (its `save` always
  passes `{merge: true}`);
* `src/unnamed/part_001` — abstract-class variant (its `save` also passes
  `{merge: true}`).

Field values, documents and the remote store are modelled as association
lists with JavaScript object semantics (no duplicate keys reachable; a set
on an existing key replaces in place, a set on a fresh key appends).
Machine-level details that none of the claims touch (real Firestore ids,
async scheduling) are abstracted: the database collaborator is a record of
pure functions per the capability set of spec section 6.
-/

namespace Firedoc

/-- Field values stored in a document.  `prim` stands for any ordinary
value, `timestamp` is the database-native timestamp type, `date` is the
generic date value produced by `Timestamp.toDate()`, and `deleteMarker`
models `FieldValue.delete()`. -/
inductive FSValue : Type where
  | prim (n : Nat)
  | timestamp (t : Nat)
  | date (t : Nat)
  | deleteMarker
deriving DecidableEq

/-- Whether a value is the database-native timestamp representation. -/
def FSValue.isNativeTs : FSValue → Bool
  | .timestamp _ => true
  | _ => false

/-- A document body: field name to value, JavaScript-object style. -/
abbrev Doc : Type := List (String × FSValue)

/-- Property read on a JavaScript object (`obj[k]`): first binding wins
(objects reachable in the model never carry duplicate keys). -/
def alookup {α : Type} : List (String × α) → String → Option α
  | [], _ => none
  | p :: m, k => if p.1 = k then some p.2 else alookup m k

/-- The key list of an object (`Object.keys`). -/
def keys {α : Type} (m : List (String × α)) : List String := m.map Prod.fst

/-- Property write on a JavaScript object (`obj[k] = v`): replaces the
binding in place if the key exists, appends otherwise. -/
def objSet {α : Type} : List (String × α) → String → α → List (String × α)
  | [], k, v => [(k, v)]
  | p :: m, k, v => if p.1 = k then (k, v) :: m else p :: objSet m k v

/-- Removing a key from an object (used by the merge-write semantics for
the field-deletion marker). -/
def eraseKey {α : Type} (m : List (String × α)) (k : String) : List (String × α) :=
  m.filter (fun p => if p.1 = k then false else true)

/-- `Object.assign({}, m)` — the shallow copy performed by
`getDocDataForSaveOperation(false)`. -/
def objAssign {α : Type} (m : List (String × α)) : List (String × α) :=
  m.foldl (fun acc p => objSet acc p.1 p.2) []

theorem alookup_objSet_self {α : Type} (m : List (String × α)) (k : String) (v : α) :
    alookup (objSet m k v) k = some v := by
  induction m with
  | nil => simp [objSet, alookup]
  | cons p m ih =>
    by_cases h : p.1 = k
    · simp [objSet, h, alookup]
    · simp [objSet, h, alookup, ih]

theorem alookup_objSet_ne {α : Type} (m : List (String × α)) (k k' : String) (v : α)
    (hne : k' ≠ k) : alookup (objSet m k v) k' = alookup m k' := by
  have hkk : ¬ k = k' := fun h => hne h.symm
  induction m with
  | nil => simp [objSet, alookup, hkk]
  | cons p m ih =>
    by_cases h : p.1 = k
    · have hp : ¬ p.1 = k' := by rw [h]; exact hkk
      have e : objSet (p :: m) k v = (k, v) :: m := by simp [objSet, h]
      rw [e]
      show (if k = k' then some v else alookup m k') = _
      rw [if_neg hkk]
      show _ = if p.1 = k' then some p.2 else alookup m k'
      rw [if_neg hp]
    · have e : objSet (p :: m) k v = p :: objSet m k v := by simp [objSet, h]
      rw [e]
      show (if p.1 = k' then some p.2 else alookup (objSet m k v) k') = _
      rw [ih]
      rfl

theorem objSet_mem {α : Type} (m : List (String × α)) (k k' : String) (v v' : α)
    (hmem : (k', v') ∈ objSet m k v) : (k', v') ∈ m ∨ (k' = k ∧ v' = v) := by
  induction m with
  | nil =>
    simp [objSet] at hmem
    exact Or.inr ⟨hmem.1, hmem.2⟩
  | cons p m ih =>
    by_cases h : p.1 = k
    · simp only [objSet, if_pos h] at hmem
      rcases List.mem_cons.mp hmem with h1 | h1
      · have := Prod.mk.injEq .. ▸ h1
        exact Or.inr ⟨(Prod.mk.injEq _ _ _ _ ▸ h1).1, (Prod.mk.injEq _ _ _ _ ▸ h1).2⟩
      · exact Or.inl (List.mem_cons_of_mem _ h1)
    · simp only [objSet, if_neg h] at hmem
      rcases List.mem_cons.mp hmem with h1 | h1
      · exact Or.inl (h1 ▸ List.mem_cons_self _ _)
      · rcases ih h1 with h3 | h3
        · exact Or.inl (List.mem_cons_of_mem _ h3)
        · exact Or.inr h3

theorem mem_keys_objSet {α : Type} (m : List (String × α)) (k k' : String) (v : α) :
    k' ∈ keys (objSet m k v) ↔ k' ∈ keys m ∨ k' = k := by
  induction m with
  | nil => simp [objSet, keys]
  | cons p m ih =>
    by_cases h : p.1 = k
    · have e : objSet (p :: m) k v = (k, v) :: m := by simp [objSet, h]
      rw [e, show keys ((k, v) :: m) = k :: keys m from rfl,
          show keys (p :: m) = p.1 :: keys m from rfl, h]
      constructor
      · exact fun hh => Or.inl hh
      · rintro (hh | rfl)
        · exact hh
        · exact List.mem_cons_self _ _
    · have e : objSet (p :: m) k v = p :: objSet m k v := by simp [objSet, h]
      rw [e, show keys (p :: objSet m k v) = p.1 :: keys (objSet m k v) from rfl,
          show keys (p :: m) = p.1 :: keys m from rfl]
      simp only [List.mem_cons, ih]
      tauto

theorem keys_nodup_objSet {α : Type} (m : List (String × α)) (k : String) (v : α)
    (hnd : (keys m).Nodup) : (keys (objSet m k v)).Nodup := by
  induction m with
  | nil => simp [objSet, keys]
  | cons p m ih =>
    rw [show keys (p :: m) = p.1 :: keys m from rfl] at hnd
    have hnd' := List.nodup_cons.mp hnd
    by_cases h : p.1 = k
    · have e : objSet (p :: m) k v = (k, v) :: m := by simp [objSet, h]
      rw [e, show keys ((k, v) :: m) = k :: keys m from rfl, ← h]
      exact hnd
    · have e : objSet (p :: m) k v = p :: objSet m k v := by simp [objSet, h]
      rw [e, show keys (p :: objSet m k v) = p.1 :: keys (objSet m k v) from rfl,
          List.nodup_cons]
      refine ⟨?_, ih hnd'.2⟩
      intro hmem
      rcases (mem_keys_objSet m k p.1 v).mp hmem with h1 | h1
      · exact hnd'.1 h1
      · exact h h1

theorem alookup_isSome_iff_mem_keys {α : Type} (m : List (String × α)) (k : String) :
    (alookup m k).isSome = true ↔ k ∈ keys m := by
  induction m with
  | nil => simp [alookup, keys]
  | cons p m ih =>
    rw [show keys (p :: m) = p.1 :: keys m from rfl]
    by_cases h : p.1 = k
    · simp [alookup, h]
    · have hne : ¬ k = p.1 := fun hh => h hh.symm
      simp [alookup, h, hne, ih]

theorem alookup_eraseKey_ne {α : Type} (m : List (String × α)) (k k' : String)
    (hne : k' ≠ k) : alookup (eraseKey m k) k' = alookup m k' := by
  induction m with
  | nil => simp [eraseKey, alookup]
  | cons p m ih =>
    by_cases h : p.1 = k
    · have h' : ¬ p.1 = k' := by rw [h]; exact fun hh => hne hh.symm
      have e : eraseKey (p :: m) k = eraseKey m k := by
        simp [eraseKey, List.filter_cons, h]
      rw [e, ih]
      show _ = if p.1 = k' then some p.2 else alookup m k'
      rw [if_neg h']
    · have e : eraseKey (p :: m) k = p :: eraseKey m k := by
        simp [eraseKey, List.filter_cons, h]
      rw [e]
      show (if p.1 = k' then some p.2 else alookup (eraseKey m k) k') = _
      rw [ih]
      rfl

theorem objSet_of_not_mem_keys {α : Type} (m : List (String × α)) (k : String) (v : α)
    (hk : k ∉ keys m) : objSet m k v = m ++ [(k, v)] := by
  induction m with
  | nil => simp [objSet]
  | cons p m ih =>
    rw [show keys (p :: m) = p.1 :: keys m from rfl] at hk
    have h1 : k ≠ p.1 := fun hh => hk (hh ▸ List.mem_cons_self _ _)
    have h2 : k ∉ keys m := fun hh => hk (List.mem_cons_of_mem _ hh)
    have h : ¬ p.1 = k := fun hh => h1 hh.symm
    simp [objSet, h, ih h2]

theorem foldl_objSet_of_disjoint {α : Type} (m : List (String × α)) :
    ∀ acc : List (String × α), (keys m).Nodup → (∀ k ∈ keys m, k ∉ keys acc) →
      m.foldl (fun acc p => objSet acc p.1 p.2) acc = acc ++ m := by
  induction m with
  | nil => intro acc _ _; simp
  | cons p m ih =>
    intro acc hnd hdis
    rw [show keys (p :: m) = p.1 :: keys m from rfl] at hnd hdis
    have hnd' := List.nodup_cons.mp hnd
    have hp : p.1 ∉ keys acc := hdis p.1 (List.mem_cons_self _ _)
    have hpe : (p.1, p.2) = p := rfl
    have hstep : objSet acc p.1 p.2 = acc ++ [p] := by
      rw [objSet_of_not_mem_keys _ _ _ hp, hpe]
    have hrec := ih (acc ++ [p]) hnd'.2 (by
      intro k hk
      have hk1 : k ≠ p.1 := fun hh => hnd'.1 (hh ▸ hk)
      have hk2 : k ∉ keys acc := hdis k (List.mem_cons_of_mem _ hk)
      rw [show keys (acc ++ [p]) = keys acc ++ [p.1] by simp [keys]]
      simp [List.mem_append, hk1, hk2])
    rw [List.foldl_cons, hstep, hrec]
    simp

theorem objAssign_eq_self {α : Type} (m : List (String × α))
    (hnd : (keys m).Nodup) : objAssign m = m := by
  unfold objAssign
  rw [foldl_objSet_of_disjoint m [] hnd (by intro k _; simp [keys])]
  simp

/-- The `MaybeCallable<string>` helper type from `src/helpers.js`: a
collection path is either a literal string or a zero-argument resolver. -/
inductive MaybeCallable : Type where
  | lit (s : String)
  | fn (f : Unit → String)

/-- Evaluating a `MaybeCallable` collection path
(the source tests whether `collectionPath` is a function and calls it). -/
def resolveMC : MaybeCallable → String
  | .lit s => s
  | .fn f => f ()

/-- A Firestore `DocumentReference`: its document path and its id. -/
structure DocRef : Type where
  path : String
  id : String
deriving DecidableEq

/-- The remote database state: document path to document body. -/
abbrev Remote : Type := List (String × Doc)

/-- The database collaborator (spec section 6 capability set), modelled as
pure functions: `listing` is the stable offset/limit enumeration of a
collection, `fetch` is fetch-one-snapshot-by-path (`none` when the document
does not exist), and `alloc` is the fresh-id generator used by
`collection(path).doc()`. -/
structure Firestore : Type where
  listing : String → List (String × Doc)
  fetch : String → Option Doc
  alloc : String → String

/-- The final path segment, giving `firestore.doc(path).id`. -/
def pathLastSegment (p : String) : String := (p.splitOn "/").getLastD ""

/-- `firestore.doc(path)`. -/
def fsDoc (p : String) : DocRef := ⟨p, pathLastSegment p⟩

/-- `firestore.collection(cp).doc()` — allocates a fresh document
reference under the collection path (the eager id-allocation side effect
of constructing a handle without an id). -/
def Firestore.collectionDoc (fs : Firestore) (cp : String) : DocRef :=
  ⟨cp ++ "/" ++ fs.alloc cp, fs.alloc cp⟩

/-- JavaScript truthiness of the optional `id` constructor argument
(`if(id)`): `undefined` and the empty string are both falsy. -/
def idTruthy : Option String → Bool
  | none => false
  | some s => if s = "" then false else true

/-- The document-handle state of class `FireDoc` (`src/src/FireDoc.ts`).
The `Main` (part_000) and abstract (part_001) variants carry the same
state plus the `isNewDocument` flag, which we include; `FireDoc.ts` simply
never reads it. -/
structure FireDoc : Type where
  firestore : Firestore
  collectionPath : MaybeCallable
  docRefId : String
  docFields : Doc
  docFieldKeysChanged : List String
  docRef : DocRef
  isNewDocument : Bool

/-- The constructor: with a truthy id the handle binds to
the collection path, a slash and the id; otherwise a fresh reference is allocated and
its generated id adopted (and `isNewDocument` set in the variants that
have the flag). -/
def FireDoc.construct (fs : Firestore) (id : Option String) (docFields : Doc)
    (collectionPath : MaybeCallable) : FireDoc :=
  let cp := resolveMC collectionPath
  if idTruthy id then
    { firestore := fs, collectionPath := collectionPath, docRefId := id.getD "",
      docFields := docFields, docFieldKeysChanged := [],
      docRef := fsDoc (cp ++ "/" ++ id.getD ""), isNewDocument := false }
  else
    let ref := fs.collectionDoc cp
    { firestore := fs, collectionPath := collectionPath, docRefId := ref.id,
      docFields := docFields, docFieldKeysChanged := [],
      docRef := ref, isNewDocument := true }

/-- `getDocDataForSaveOperation(onlyChanged)`: for `onlyChanged`, walk
`docFieldKeysChanged` in order, copying each key that is also a key of
`docFields` (the `Object.keys(this.docFields).includes(key)` guard holds
exactly when the `alookup` succeeds); otherwise `Object.assign({}, docFields)`. -/
def FireDoc.getDocDataForSaveOperation (h : FireDoc) (onlyChanged : Bool) : Doc :=
  if onlyChanged then
    h.docFieldKeysChanged.foldl (fun acc k =>
      match alookup h.docFields k with
      | some v => objSet acc k v
      | none => acc) []
  else objAssign h.docFields

/-- `resetDocFieldKeysChanged()`. -/
def FireDoc.resetDocFieldKeysChanged (h : FireDoc) : FireDoc :=
  { h with docFieldKeysChanged := [] }

/-- `getAllFields()` — returns `this.docFields` as is. -/
def FireDoc.getAllFields (h : FireDoc) : Doc := h.docFields

/-- `getField(name)` — reads the locally known value, converting a
database-native `Timestamp` to a `Date` (`value.toDate()`). -/
def FireDoc.getField (h : FireDoc) (k : String) : Option FSValue :=
  match alookup h.docFields k with
  | some (.timestamp t) => some (.date t)
  | v => v

/-- The value actually stored by `setField`: `undefined` becomes
`FieldValue.delete()`. -/
def storedSetValue : Option FSValue → FSValue
  | none => .deleteMarker
  | some v => v

/-- `setField(name, value)` — stores the value (or the deletion marker for
`undefined`) and pushes the name onto `docFieldKeysChanged`. -/
def FireDoc.setField (h : FireDoc) (k : String) (v : Option FSValue) : FireDoc :=
  { h with docFields := objSet h.docFields k (storedSetValue v),
           docFieldKeysChanged := h.docFieldKeysChanged ++ [k] }

/-- `load()` — fetches the snapshot at `docRef`; a missing document throws
the string carrying the id, an existing one replaces `docFields` wholesale
and clears the changed markers. -/
def FireDoc.load (h : FireDoc) : Except String FireDoc :=
  match h.firestore.fetch h.docRef.path with
  | some docData =>
      .ok { h with docFieldKeysChanged := [], docFields := docData }
  | none => .error ("Document " ++ h.docRefId ++ " does not exist")

/-- The `option` argument of `save`: a boolean, or the string `changes`, or the string `overwrite`. -/
inductive SaveOption : Type where
  | bool (b : Bool)
  | changes
  | overwrite
deriving DecidableEq

/-- The `onlyChanges` fallback computation in `save`
(a boolean is used directly; a string option means changes-only exactly when it is the `changes` string). -/
def optionOnlyChanges : SaveOption → Bool
  | .bool b => b
  | .changes => true
  | .overwrite => false

/-- One remote write call `docRef.set(payload, {merge})`. -/
structure WriteOp : Type where
  path : String
  payload : Doc
  merge : Bool
deriving DecidableEq

/-- `save(option)` of class `FireDoc` in `src/src/FireDoc.ts`: computes the
payload, clears the changed markers unconditionally, and — only when the
payload is non-empty — issues `docRef.set(docData, {merge: onlyChanges})`.
The returned list holds the write calls issued (zero or one). -/
def FireDoc.save (h : FireDoc) (option : SaveOption) : FireDoc × List WriteOp :=
  let onlyChanges := optionOnlyChanges option
  let docData := h.getDocDataForSaveOperation onlyChanges
  let h' := h.resetDocFieldKeysChanged
  if docData.isEmpty then (h', [])
  else (h', [⟨h.docRef.path, docData, onlyChanges⟩])

/-- `save(option)` of class `Main` in part_000 (and, through the boolean
option, `save(onlyChanged)` of the part_001 variant): identical except the
write is always `docRef.set(docData, {merge: true})`. -/
def Main.save (h : FireDoc) (option : SaveOption) : FireDoc × List WriteOp :=
  let onlyChanges := optionOnlyChanges option
  let docData := h.getDocDataForSaveOperation onlyChanges
  let h' := h.resetDocFieldKeysChanged
  if docData.isEmpty then (h', [])
  else (h', [⟨h.docRef.path, docData, true⟩])

/-- Collaborator model of the merge-write (spec section 6 and glossary): a
merge-set folds the payload into the existing document, a deletion marker
removing its field; this is the capability the spec names
set-with-merge. -/
def mergeDoc (old payload : Doc) : Doc :=
  payload.foldl (fun d p =>
    if p.2 = FSValue.deleteMarker then eraseKey d p.1 else objSet d p.1 p.2) old

/-- Collaborator model of `docRef.set(payload, {merge})`: with merge, fold
the payload into the current document (creating it when absent); without
merge, replace the document with the payload.  (No save path exercised by
the claims reaches a non-merge set whose payload holds a deletion marker;
the real database rejects that combination.) -/
def setDoc (old : Doc) (payload : Doc) (merge : Bool) : Doc :=
  if merge then mergeDoc old payload else payload

/-- Applying one write call to the remote state. -/
def applyWrite (r : Remote) (w : WriteOp) : Remote :=
  objSet r w.path (setDoc ((alookup r w.path).getD []) w.payload w.merge)

/-- The document body currently stored at a path (an absent document reads
as having no fields). -/
def docAt (r : Remote) (p : String) : Doc := (alookup r p).getD []

/-- The internal scan page size of `withRawFilter` (`searchPerPage`). -/
def searchPerPage : Nat := 100

/-- One fetched scan window:
`collection.offset(p * searchPerPage).limit(searchPerPage)` over the
stable listing. -/
def window {ι δ : Type} (coll : List (ι × δ)) (p : Nat) : List (ι × δ) :=
  (coll.drop (p * searchPerPage)).take searchPerPage

/-- The post-filter match ids of scan window `p`
(`docs.filter(doc => input.filter(doc.data(), doc.id)).map(doc => doc.id)`). -/
def matchIds {ι δ : Type} (f : δ → ι → Bool) (coll : List (ι × δ)) (p : Nat) : List ι :=
  ((window coll p).filter (fun d => f d.2 d.1)).map Prod.fst

/-- The `while(true)` scan loop of `withRawFilter`, starting at scan page
`p`: a window with zero post-filter matches breaks the loop, otherwise its
match ids are pushed and the scan-page counter advances.  The loop is run
on fuel; `scanIds` supplies fuel that provably exceeds the number of loop
iterations possible on a finite listing (`scanFromFuel_stable`). -/
def scanFromFuel {ι δ : Type} (f : δ → ι → Bool) (coll : List (ι × δ)) :
    Nat → Nat → List ι
  | 0, _ => []
  | fuel + 1, p =>
      let ids := matchIds f coll p
      if ids.isEmpty then [] else ids ++ scanFromFuel f coll fuel (p + 1)

/-- The accumulated `searchFoundItemIds` of the scan, from page 0. -/
def scanIds {ι δ : Type} (f : δ → ι → Bool) (coll : List (ι × δ)) : List ι :=
  scanFromFuel f coll (coll.length / searchPerPage + 2) 0

/-- JavaScript `Math.ceil(a / b)` on the two naturals of
`Math.ceil(searchFoundItemIds.length / input.perPage)` — the ceiling of
the exact rational quotient (callers supply a positive `perPage`). -/
def jsCeilDiv (a b : Nat) : Nat := (⌈(a : ℚ) / (b : ℚ)⌉).toNat

/-- The result shape of `withRawFilter`. -/
structure RawFilterResult : Type where
  allPages : Nat
  docs : List FireDoc

/-- `withRawFilter(firestore, {page, perPage, filter})` of the
`registerFireDoc` binder in `src/src/FireDoc.ts`: scan the full collection
in windows of `searchPerPage`, stop on the first window with zero
post-filter matches, compute `allPages = Math.ceil(total / perPage)`,
slice the accumulated ids with
`slice(perPage * (page - 1), perPage * page)` (callers use 1-based pages),
and construct-and-`load()` a handle for every selected id. -/
def withRawFilter (firestore : Firestore) (collectionPath : MaybeCallable)
    (page perPage : Nat) (filter : Doc → String → Bool) :
    Except String RawFilterResult :=
  let collection := firestore.listing (resolveMC collectionPath)
  let searchFoundItemIds := scanIds filter collection
  let allPages := jsCeilDiv searchFoundItemIds.length perPage
  let idsFilteredByPagination :=
    (searchFoundItemIds.drop (perPage * (page - 1))).take
      (perPage * page - perPage * (page - 1))
  (idsFilteredByPagination.mapM (fun id =>
      (FireDoc.construct firestore (some id) [] collectionPath).load)).map
    (fun docs => ⟨allPages, docs⟩)

theorem ceilDiv_bounds (a b : Nat) (hb : 0 < b) :
    a ≤ ((a + b - 1) / b) * b ∧ ((a + b - 1) / b) * b < a + b := by
  have hq := Nat.div_add_mod (a + b - 1) b
  have hr : (a + b - 1) % b < b := Nat.mod_lt _ hb
  have hm : ((a + b - 1) / b) * b + (a + b - 1) % b = a + b - 1 := by
    rw [Nat.mul_comm]; exact hq
  generalize ((a + b - 1) / b) * b = m at hm ⊢
  generalize (a + b - 1) % b = r at hm hr
  omega

theorem jsCeilDiv_eq (a b : Nat) (hb : 0 < b) :
    jsCeilDiv a b = (a + b - 1) / b := by
  have hbq : (0 : ℚ) < (b : ℚ) := by exact_mod_cast hb
  obtain ⟨h1, h2⟩ := ceilDiv_bounds a b hb
  set q := (a + b - 1) / b with hq
  have hceil : ⌈(a : ℚ) / (b : ℚ)⌉ = (q : ℤ) := by
    rw [Int.ceil_eq_iff]
    constructor
    · rw [lt_div_iff₀ hbq]
      have c2 : ((q * b : ℕ) : ℚ) < ((a + b : ℕ) : ℚ) := by exact_mod_cast h2
      push_cast at c2 ⊢
      nlinarith [c2]
    · rw [div_le_iff₀ hbq]
      have c1 : ((a : ℕ) : ℚ) ≤ ((q * b : ℕ) : ℚ) := by exact_mod_cast h1
      push_cast at c1 ⊢
      linarith
  unfold jsCeilDiv
  rw [hceil, Int.toNat_natCast]

theorem jsCeilDiv_bounds (a b : Nat) (hb : 0 < b) :
    a ≤ jsCeilDiv a b * b ∧ jsCeilDiv a b * b < a + b := by
  rw [jsCeilDiv_eq a b hb]
  exact ceilDiv_bounds a b hb

theorem saveFold_alookup (fields : Doc) (l : List String) :
    ∀ (acc : Doc) (k : String),
      alookup (l.foldl (fun acc k =>
        match alookup fields k with
        | some v => objSet acc k v
        | none => acc) acc) k
      = if k ∈ l ∧ (alookup fields k).isSome = true then alookup fields k
        else alookup acc k := by
  induction l with
  | nil =>
    intro acc k
    simp
  | cons a l ih =>
    intro acc k
    rw [List.foldl_cons, ih]
    by_cases hmem : k ∈ l ∧ (alookup fields k).isSome = true
    · rw [if_pos hmem, if_pos ⟨List.mem_cons_of_mem _ hmem.1, hmem.2⟩]
    · rw [if_neg hmem]
      by_cases hak : a = k
      · subst hak
        cases hf : alookup fields a with
        | some v =>
          rw [if_pos ⟨List.mem_cons_self _ _, rfl⟩]
          show alookup (objSet acc a v) a = some v
          exact alookup_objSet_self acc a v
        | none =>
          rw [if_neg (fun hc => by simpa using hc.2)]
      · have hknl : ¬ (k ∈ a :: l ∧ (alookup fields k).isSome = true) := by
          rintro ⟨hin, hs⟩
          rcases List.mem_cons.mp hin with h1 | h1
          · exact hak h1.symm
          · exact hmem ⟨h1, hs⟩
        rw [if_neg hknl]
        cases hf : alookup fields a with
        | some v =>
          show alookup (objSet acc a v) k = alookup acc k
          exact alookup_objSet_ne acc a k v (fun hh => hak hh.symm)
        | none => rfl

theorem saveFold_keys_nodup (fields : Doc) (l : List String) :
    ∀ acc : Doc, (keys acc).Nodup →
      (keys (l.foldl (fun acc k =>
        match alookup fields k with
        | some v => objSet acc k v
        | none => acc) acc)).Nodup := by
  induction l with
  | nil => intro acc hnd; simpa using hnd
  | cons a l ih =>
    intro acc hnd
    rw [List.foldl_cons]
    cases hf : alookup fields a with
    | some v =>
      simp only [hf]
      exact ih _ (keys_nodup_objSet acc a v hnd)
    | none =>
      simp only [hf]
      exact ih _ hnd

theorem saveFold_mem_val (fields : Doc) (l : List String) :
    ∀ (acc : Doc) (k : String) (v : FSValue),
      (k, v) ∈ l.foldl (fun acc k =>
        match alookup fields k with
        | some w => objSet acc k w
        | none => acc) acc →
      (k, v) ∈ acc ∨ alookup fields k = some v := by
  induction l with
  | nil =>
    intro acc k v hmem
    simpa using Or.inl hmem
  | cons a l ih =>
    intro acc k v hmem
    rw [List.foldl_cons] at hmem
    cases hf : alookup fields a with
    | some w =>
      simp only [hf] at hmem
      rcases ih _ k v hmem with h1 | h1
      · rcases objSet_mem acc a k w v h1 with h2 | h2
        · exact Or.inl h2
        · exact Or.inr (by rw [h2.1, hf, h2.2])
      · exact Or.inr h1
    | none =>
      simp only [hf] at hmem
      exact ih _ k v hmem

/-- Unfolding equation for one scan-loop iteration. -/
theorem scanFromFuel_succ {ι δ : Type} (f : δ → ι → Bool) (coll : List (ι × δ))
    (fuel p : Nat) :
    scanFromFuel f coll (fuel + 1) p =
      if (matchIds f coll p).isEmpty then []
      else matchIds f coll p ++ scanFromFuel f coll fuel (p + 1) := rfl

theorem matchIds_eq_nil_of_le {ι δ : Type} (f : δ → ι → Bool) (coll : List (ι × δ))
    (p : Nat) (hp : coll.length ≤ p * searchPerPage) : matchIds f coll p = [] := by
  unfold matchIds window
  rw [List.drop_eq_nil_of_le hp]
  simp

/-- The scan loop is insensitive to surplus fuel: once the fuel covers the
whole listing plus one closing window, adding fuel changes nothing.  This
is what justifies running the `while(true)` loop of the source on the
fixed fuel supplied by `scanIds`. -/
theorem scanFromFuel_stable {ι δ : Type} (f : δ → ι → Bool) (coll : List (ι × δ))
    (fuel : Nat) :
    ∀ p : Nat, coll.length + searchPerPage ≤ (p + fuel) * searchPerPage →
      scanFromFuel f coll (fuel + 1) p = scanFromFuel f coll fuel p := by
  induction fuel with
  | zero =>
    intro p hp
    have hle : coll.length ≤ p * searchPerPage := by
      have hp' : coll.length + searchPerPage ≤ p * searchPerPage := by
        simpa using hp
      omega
    rw [scanFromFuel_succ, matchIds_eq_nil_of_le f coll p hle]
    rfl
  | succ n ih =>
    intro p hp
    rw [scanFromFuel_succ f coll (n + 1) p, scanFromFuel_succ f coll n p]
    by_cases hi : (matchIds f coll p).isEmpty
    · rw [if_pos hi, if_pos hi]
    · rw [if_neg hi, if_neg hi]
      rw [ih (p + 1) (by
        have harith : p + 1 + n = p + (n + 1) := by omega
        rw [harith]
        exact hp)]

/-- Every id the scan accumulates comes from a window strictly before any
window whose post-filter match list is empty (provided the scan has not
already passed it). -/
theorem scanFromFuel_mem {ι δ : Type} (f : δ → ι → Bool) (coll : List (ι × δ))
    (w : Nat) (hw : matchIds f coll w = []) :
    ∀ (fuel p : Nat), p ≤ w → ∀ i ∈ scanFromFuel f coll fuel p,
      ∃ j, p ≤ j ∧ j < w ∧ i ∈ matchIds f coll j := by
  intro fuel
  induction fuel with
  | zero =>
    intro p _ i hi
    simp [scanFromFuel] at hi
  | succ n ih =>
    intro p hp i hi
    rw [scanFromFuel_succ] at hi
    by_cases he : (matchIds f coll p).isEmpty
    · simp [he] at hi
    · rw [if_neg (by simpa using he)] at hi
      have hpw : p ≠ w := by
        intro hh
        subst hh
        rw [hw] at he
        exact he rfl
      have hpw' : p < w := lt_of_le_of_ne hp hpw
      rcases List.mem_append.mp hi with h1 | h1
      · exact ⟨p, le_refl p, hpw', h1⟩
      · obtain ⟨j, hj1, hj2, hj3⟩ := ih (p + 1) hpw' i h1
        exact ⟨j, le_trans (Nat.le_succ p) hj1, hj2, hj3⟩

/-- Match ids are ids of listed documents. -/
theorem matchIds_subset {ι δ : Type} (f : δ → ι → Bool) (coll : List (ι × δ))
    (p : Nat) (i : ι) (hi : i ∈ matchIds f coll p) : i ∈ coll.map Prod.fst := by
  unfold matchIds window at hi
  rcases List.mem_map.mp hi with ⟨d, hd, rfl⟩
  have hd1 := List.mem_of_mem_filter hd
  have hd2 := List.mem_of_mem_take hd1
  have hd3 := List.mem_of_mem_drop hd2
  exact List.mem_map.mpr ⟨d, hd3, rfl⟩

theorem scanIds_subset {ι δ : Type} (f : δ → ι → Bool) (coll : List (ι × δ))
    (i : ι) (hi : i ∈ scanIds f coll) : i ∈ coll.map Prod.fst := by
  have hw : matchIds f coll (coll.length + 1) = [] := by
    apply matchIds_eq_nil_of_le
    have : 0 < searchPerPage := by decide
    calc coll.length ≤ coll.length + 1 := Nat.le_succ _
    _ ≤ (coll.length + 1) * searchPerPage := Nat.le_mul_of_pos_right _ this
  obtain ⟨j, _, _, hj⟩ :=
    scanFromFuel_mem f coll (coll.length + 1) hw _ 0 (Nat.zero_le _) i hi
  exact matchIds_subset f coll j i hj

theorem exc_bind_ok {ε α β : Type} (a : α) (g : α → Except ε β) :
    (Except.ok a >>= g) = g a := rfl

theorem exc_bind_error {ε α β : Type} (e : ε) (g : α → Except ε β) :
    ((Except.error e : Except ε α) >>= g) = Except.error e := rfl

theorem exc_pure_eq {ε α : Type} (a : α) : (pure a : Except ε α) = Except.ok a := rfl

theorem construct_of_ne_empty (fs : Firestore) (fields : Doc) (cp : MaybeCallable)
    (i : String) (hi : i ≠ "") :
    FireDoc.construct fs (some i) fields cp =
      { firestore := fs, collectionPath := cp, docRefId := i,
        docFields := fields, docFieldKeysChanged := [],
        docRef := fsDoc (resolveMC cp ++ "/" ++ i), isNewDocument := false } := by
  unfold FireDoc.construct idTruthy
  simp [hi]

theorem load_of_fetch_some (h : FireDoc) (d : Doc)
    (hf : h.firestore.fetch h.docRef.path = some d) :
    h.load = Except.ok { h with docFieldKeysChanged := [], docFields := d } := by
  unfold FireDoc.load
  rw [hf]

theorem load_of_fetch_none (h : FireDoc)
    (hf : h.firestore.fetch h.docRef.path = none) :
    h.load = Except.error ("Document " ++ h.docRefId ++ " does not exist") := by
  unfold FireDoc.load
  rw [hf]

/-- What a successful `Promise.all` of per-id construct-and-load calls
yields: one loaded handle per selected id, in order. -/
theorem mapM_load_ok (fs : Firestore) (cp : MaybeCallable) :
    ∀ (l : List String) (docs : List FireDoc),
      (∀ i ∈ l, i ≠ "") →
      l.mapM (fun id => (FireDoc.construct fs (some id) [] cp).load)
        = Except.ok docs →
      docs.map FireDoc.docRefId = l
      ∧ ∀ d ∈ docs, fs.fetch d.docRef.path = some d.docFields
          ∧ d.docFieldKeysChanged = [] := by
  intro l
  induction l with
  | nil =>
    intro docs _ hok
    rw [List.mapM_nil, exc_pure_eq] at hok
    cases hok
    exact ⟨rfl, by intro d hd; simp at hd⟩
  | cons a l ih =>
    intro docs hne hok
    rw [List.mapM_cons] at hok
    have ha : a ≠ "" := hne a (List.mem_cons_self _ _)
    have hcon := construct_of_ne_empty fs [] cp a ha
    cases hf : fs.fetch (FireDoc.construct fs (some a) [] cp).docRef.path with
    | none =>
      rw [load_of_fetch_none _ (by rw [hcon] at hf ⊢; exact hf), exc_bind_error] at hok
      cases hok
    | some d =>
      rw [load_of_fetch_some _ d (by rw [hcon] at hf ⊢; exact hf), exc_bind_ok] at hok
      cases hrest : l.mapM (fun id => (FireDoc.construct fs (some id) [] cp).load) with
      | error e =>
        rw [hrest, exc_bind_error] at hok
        cases hok
      | ok rest =>
        rw [hrest, exc_bind_ok, exc_pure_eq] at hok
        cases hok
        obtain ⟨ih1, ih2⟩ := ih rest (fun i hi => hne i (List.mem_cons_of_mem _ hi)) hrest
        constructor
        · rw [List.map_cons, ih1]
          congr 1
          rw [hcon]
        · intro x hx
          rcases List.mem_cons.mp hx with h1 | h1
          · subst h1
            refine ⟨?_, rfl⟩
            rw [hf]
          · exact ih2 x h1

theorem getDocData_true_alookup (h : FireDoc) (k : String) :
    alookup (h.getDocDataForSaveOperation true) k
    = if k ∈ h.docFieldKeysChanged ∧ (alookup h.docFields k).isSome = true
      then alookup h.docFields k else none := by
  unfold FireDoc.getDocDataForSaveOperation
  rw [if_pos rfl, saveFold_alookup h.docFields h.docFieldKeysChanged [] k]
  rfl

theorem getDocData_true_mem_keys (h : FireDoc) (k : String) :
    k ∈ keys (h.getDocDataForSaveOperation true)
      ↔ k ∈ h.docFieldKeysChanged ∧ k ∈ keys h.docFields := by
  rw [← alookup_isSome_iff_mem_keys, getDocData_true_alookup]
  by_cases hc : k ∈ h.docFieldKeysChanged ∧ (alookup h.docFields k).isSome = true
  · rw [if_pos hc]
    constructor
    · intro _
      exact ⟨hc.1, (alookup_isSome_iff_mem_keys _ _).mp hc.2⟩
    · intro _
      exact hc.2
  · rw [if_neg hc]
    simp only [Option.isSome_none, Bool.false_eq_true, false_iff]
    rintro ⟨h1, h2⟩
    exact hc ⟨h1, (alookup_isSome_iff_mem_keys _ _).mpr h2⟩

theorem getDocData_true_nodup (h : FireDoc) :
    (keys (h.getDocDataForSaveOperation true)).Nodup := by
  unfold FireDoc.getDocDataForSaveOperation
  rw [if_pos rfl]
  exact saveFold_keys_nodup h.docFields h.docFieldKeysChanged [] (by simp [keys])

theorem getDocData_true_mem_val (h : FireDoc) (k : String) (v : FSValue)
    (hmem : (k, v) ∈ h.getDocDataForSaveOperation true) :
    alookup h.docFields k = some v := by
  unfold FireDoc.getDocDataForSaveOperation at hmem
  rw [if_pos rfl] at hmem
  rcases saveFold_mem_val h.docFields h.docFieldKeysChanged [] k v hmem with h1 | h1
  · simp at h1
  · exact h1

theorem getDocData_false_eq (h : FireDoc) (hnd : (keys h.docFields).Nodup) :
    h.getDocDataForSaveOperation false = h.docFields := by
  unfold FireDoc.getDocDataForSaveOperation
  rw [if_neg (by simp)]
  exact objAssign_eq_self h.docFields hnd

/-- A merge-write leaves every field outside the payload key set unchanged. -/
theorem alookup_mergeDoc_not_mem (payload : Doc) :
    ∀ (old : Doc) (k : String), k ∉ keys payload →
      alookup (mergeDoc old payload) k = alookup old k := by
  induction payload with
  | nil => intro old k _; rfl
  | cons p l ih =>
    intro old k hk
    rw [show keys (p :: l) = p.1 :: keys l from rfl] at hk
    have hk1 : k ≠ p.1 := fun hh => hk (hh ▸ List.mem_cons_self _ _)
    have hk2 : k ∉ keys l := fun hh => hk (List.mem_cons_of_mem _ hh)
    show alookup (mergeDoc
      (if p.2 = FSValue.deleteMarker then eraseKey old p.1 else objSet old p.1 p.2) l) k
      = alookup old k
    rw [ih _ k hk2]
    by_cases hd : p.2 = FSValue.deleteMarker
    · rw [if_pos hd]
      exact alookup_eraseKey_ne old p.1 k hk1
    · rw [if_neg hd]
      exact alookup_objSet_ne old p.1 k p.2 hk1

theorem applyWrite_merge_frame (remote : Remote) (p : String) (payload : Doc)
    (k : String) (hk : k ∉ keys payload) :
    alookup (docAt (applyWrite remote ⟨p, payload, true⟩) p) k
      = alookup (docAt remote p) k := by
  unfold applyWrite docAt
  rw [alookup_objSet_self]
  show alookup (mergeDoc ((alookup remote p).getD []) payload) k = _
  exact alookup_mergeDoc_not_mem payload _ k hk

/-- Unfolding equation for `FireDoc.save`. -/
theorem fireDocSave_eq (h : FireDoc) (opt : SaveOption) :
    h.save opt =
      (h.resetDocFieldKeysChanged,
        if (h.getDocDataForSaveOperation (optionOnlyChanges opt)).isEmpty then []
        else [⟨h.docRef.path, h.getDocDataForSaveOperation (optionOnlyChanges opt),
          optionOnlyChanges opt⟩]) := by
  unfold FireDoc.save
  by_cases hpe : (h.getDocDataForSaveOperation (optionOnlyChanges opt)).isEmpty
  · rw [if_pos hpe, if_pos hpe]
  · rw [if_neg hpe, if_neg hpe]

/-- Unfolding equation for `Main.save`. -/
theorem mainSave_eq (h : FireDoc) (opt : SaveOption) :
    Main.save h opt =
      (h.resetDocFieldKeysChanged,
        if (h.getDocDataForSaveOperation (optionOnlyChanges opt)).isEmpty then []
        else [⟨h.docRef.path, h.getDocDataForSaveOperation (optionOnlyChanges opt),
          true⟩]) := by
  unfold Main.save
  by_cases hpe : (h.getDocDataForSaveOperation (optionOnlyChanges opt)).isEmpty
  · rw [if_pos hpe, if_pos hpe]
  · rw [if_neg hpe, if_neg hpe]

theorem exc_map_ok {ε α β : Type} (g : α → β) (a : α) :
    Except.map g (Except.ok a : Except ε α) = Except.ok (g a) := rfl

theorem exc_map_error {ε α β : Type} (g : α → β) (e : ε) :
    Except.map g (Except.error e : Except ε α) = Except.error e := rfl

/-- Unfolding equation for `withRawFilter`. -/
theorem withRawFilter_eq (fs : Firestore) (cp : MaybeCallable)
    (page perPage : Nat) (f : Doc → String → Bool) :
    withRawFilter fs cp page perPage f =
      ((((scanIds f (fs.listing (resolveMC cp))).drop (perPage * (page - 1))).take
          (perPage * page - perPage * (page - 1))).mapM (fun id =>
            (FireDoc.construct fs (some id) [] cp).load)).map
        (fun docs => ⟨jsCeilDiv (scanIds f (fs.listing (resolveMC cp))).length perPage,
          docs⟩) := rfl

/-- Demo field layout used by concrete scenarios: one marker field. -/
def demoDoc (b : Nat) : Doc := [("m", FSValue.prim b)]

/-- A 110-document collection: two scan windows (documents 0 to 99 and
100 to 109), with exactly five matching documents, all inside the first
window. -/
def demoColl : List (String × Doc) :=
  (List.range 110).map (fun i =>
    (Nat.repr i, demoDoc (if i = 10 ∨ i = 20 ∨ i = 30 ∨ i = 40 ∨ i = 50 then 1 else 0)))

/-- The client-side predicate matching the marker. -/
def demoFilter : Doc → String → Bool := fun d _ =>
  match alookup d "m" with
  | some (FSValue.prim 1) => true
  | _ => false

/-- A database whose collection listing is `demoColl` and whose
path-indexed fetches resolve within it under the collection path `c`. -/
def demoFs : Firestore :=
  { listing := fun _ => demoColl
  , fetch := fun p => alookup (demoColl.map (fun x => ("c/" ++ x.1, x.2))) p
  , alloc := fun _ => "generated" }

/-- The handle produced by construct-and-load for a matching demo id. -/
def demoLoadedDoc (i : String) : FireDoc :=
  { firestore := demoFs, collectionPath := .lit "c", docRefId := i,
    docFields := demoDoc 1, docFieldKeysChanged := [],
    docRef := fsDoc ("c" ++ "/" ++ i), isNewDocument := false }

/-- The value `withRawFilter` returns on the demo scenario with
`page = 2`, `perPage = 2`. -/
def demoResult : RawFilterResult :=
  ⟨jsCeilDiv 5 2, [demoLoadedDoc "30", demoLoadedDoc "40"]⟩

/-- An inert database used by the handle-level scenarios. -/
def cexFs : Firestore :=
  { listing := fun _ => [], fetch := fun _ => none, alloc := fun _ => "generated" }

/-- A handle bound to `c/x` holding two locally known fields. -/
def cexHandle : FireDoc :=
  FireDoc.construct cexFs (some "x")
    [("a", FSValue.prim 2), ("b", FSValue.prim 5)] (.lit "c")

/-- A remote state where `c/x` carries a field `c` that no local payload
mentions. -/
def cexRemote : Remote := [("c/x", [("a", FSValue.prim 1), ("c", FSValue.prim 3)])]

/-- A database whose every fetch succeeds with a one-field document. -/
def wit4Fs : Firestore :=
  { listing := fun _ => [], fetch := fun _ => some [("z", FSValue.prim 9)],
    alloc := fun _ => "generated" }

/-- A handle whose fetch always fails (missing remote document). -/
def wit4A : FireDoc :=
  FireDoc.construct cexFs (some "x") [("a", FSValue.prim 1)] (.lit "c")

/-- A handle whose fetch always succeeds. -/
def wit4B : FireDoc := FireDoc.construct wit4Fs (some "y") [] (.lit "c")

/-- A handle with a dirty single field (non-empty save payload). -/
def wit5b : FireDoc := wit4A.setField "b" (some (FSValue.prim 7))

/-- A handle state with duplicate changed keys and a changed key that is
not a field key (the defensive case named by the spec). -/
def wit6 : FireDoc :=
  { firestore := cexFs, collectionPath := .lit "c", docRefId := "x",
    docFields := [("a", FSValue.prim 1), ("b", FSValue.prim 2)],
    docFieldKeysChanged := ["a", "a", "zz"],
    docRef := fsDoc "c/x", isNewDocument := false }

/-- A handle whose fields hold a database-native timestamp (the state
`load` produces for a remote document with a timestamp field). -/
def wit9 : FireDoc :=
  { firestore := cexFs, collectionPath := .lit "c", docRefId := "x",
    docFields := [("t", FSValue.timestamp 5)], docFieldKeysChanged := [],
    docRef := fsDoc "c/x", isNewDocument := false }

/-- Whether an optional read result avoids the native timestamp
representation. -/
def noNativeTs (o : Option FSValue) : Bool :=
  match o with
  | some (FSValue.timestamp _) => false
  | _ => true

/-- C1: for every collection and client-side predicate, the scan loop of
`searchWithClientFilter` (`withRawFilter`) stops at the first fetched
window of 100 documents whose post-filter match count is zero — even if
that window is non-empty and later windows hold matches — so every id the
scan accumulates (and hence every id of the returned docs) comes from a
window strictly before any zero-match window. -/
theorem scan_stops_at_first_zero_match_window {ι δ : Type}
    (f : δ → ι → Bool) (coll : List (ι × δ)) (w : Nat)
    (hw : matchIds f coll w = []) :
    ∀ i ∈ scanIds f coll, ∃ j, j < w ∧ i ∈ matchIds f coll j := by
  intro i hi
  obtain ⟨j, _, hj2, hj3⟩ :=
    scanFromFuel_mem f coll w hw _ 0 (Nat.zero_le _) i hi
  exact ⟨j, hj2, hj3⟩

theorem scan_stops_at_first_zero_match_window_witness :
    ((window demoColl 1).length = 10 ∧ matchIds demoFilter demoColl 1 = []) ∧
    ∀ i ∈ scanIds demoFilter demoColl,
      ∃ j, j < 1 ∧ i ∈ matchIds demoFilter demoColl j :=
  ⟨⟨by decide, by decide⟩,
    scan_stops_at_first_zero_match_window demoFilter demoColl 1 (by decide)⟩

/-- C4: `load()` fails with a NotFound condition carrying the handle id
exactly when no remote document exists at the handle location; when the
document exists, `load` replaces the fields wholesale, clears the changed
markers, and returns the same handle otherwise unchanged. -/
theorem load_notFound_iff (h : FireDoc) (d : Doc) :
    ((∃ e, h.load = Except.error e) ↔ h.firestore.fetch h.docRef.path = none)
    ∧ (h.firestore.fetch h.docRef.path = none →
        h.load = Except.error ("Document " ++ h.docRefId ++ " does not exist"))
    ∧ (h.firestore.fetch h.docRef.path = some d →
        h.load = Except.ok { h with docFieldKeysChanged := [], docFields := d }) := by
  refine ⟨⟨?_, ?_⟩, fun hf => load_of_fetch_none h hf, fun hf => load_of_fetch_some h d hf⟩
  · rintro ⟨e, he⟩
    cases hf : h.firestore.fetch h.docRef.path with
    | none => rfl
    | some d' =>
      rw [load_of_fetch_some h d' hf] at he
      cases he
  · intro hf
    exact ⟨_, load_of_fetch_none h hf⟩

theorem load_notFound_iff_witness :
    (wit4A.firestore.fetch wit4A.docRef.path = none ∧
      wit4A.load = Except.error ("Document " ++ wit4A.docRefId ++ " does not exist")) ∧
    (wit4B.firestore.fetch wit4B.docRef.path = some [("z", FSValue.prim 9)] ∧
      wit4B.load = Except.ok
        { wit4B with docFieldKeysChanged := [], docFields := [("z", FSValue.prim 9)] }) :=
  ⟨⟨rfl, (load_notFound_iff wit4A []).2.1 rfl⟩,
   ⟨rfl, (load_notFound_iff wit4B [("z", FSValue.prim 9)]).2.2 rfl⟩⟩

/-- C5: `save` always clears the changed markers (even when no write
occurs), and it issues a remote write exactly when the payload computed by
`getDocDataForSaveOperation` for the mode is non-empty; an empty payload
issues zero write calls. -/
theorem save_clears_and_writes_iff (h : FireDoc) (opt : SaveOption) :
    (h.save opt).1.docFieldKeysChanged = []
    ∧ ((h.save opt).2 = [] ↔ h.getDocDataForSaveOperation (optionOnlyChanges opt) = [])
    ∧ (h.getDocDataForSaveOperation (optionOnlyChanges opt) ≠ [] →
        (h.save opt).2 = [⟨h.docRef.path,
          h.getDocDataForSaveOperation (optionOnlyChanges opt), optionOnlyChanges opt⟩]) := by
  rw [fireDocSave_eq]
  by_cases hpe : (h.getDocDataForSaveOperation (optionOnlyChanges opt)).isEmpty
  · rw [if_pos hpe]
    have hnl := List.isEmpty_iff.mp hpe
    exact ⟨rfl, by simp [hnl], fun hne => absurd hnl hne⟩
  · rw [if_neg hpe]
    have hnl : h.getDocDataForSaveOperation (optionOnlyChanges opt) ≠ [] := by
      intro hc
      exact hpe (List.isEmpty_iff.mpr hc)
    exact ⟨rfl, by simp [hnl], fun _ => rfl⟩

theorem save_clears_and_writes_iff_witness :
    (wit4A.getDocDataForSaveOperation (optionOnlyChanges SaveOption.changes) = [] ∧
      (wit4A.save SaveOption.changes).2 = [] ∧
      (wit4A.save SaveOption.changes).1.docFieldKeysChanged = []) ∧
    (wit5b.getDocDataForSaveOperation (optionOnlyChanges SaveOption.changes) ≠ [] ∧
      (wit5b.save SaveOption.changes).2 = [⟨wit5b.docRef.path,
        wit5b.getDocDataForSaveOperation (optionOnlyChanges SaveOption.changes),
        optionOnlyChanges SaveOption.changes⟩]) :=
  ⟨⟨by decide,
    (save_clears_and_writes_iff wit4A SaveOption.changes).2.1.mpr (by decide),
    (save_clears_and_writes_iff wit4A SaveOption.changes).1⟩,
   ⟨by decide,
    (save_clears_and_writes_iff wit5b SaveOption.changes).2.2 (by decide)⟩⟩

/-- C6: `getDocDataForSaveOperation(true)` holds exactly the keys that
occur in the changed markers and are also field keys, each mapped to its
current field value, with no duplicate output keys; with `false` it is a
shallow copy of all fields. -/
theorem getDataForSave_characterization (h : FireDoc)
    (hnd : (keys h.docFields).Nodup) :
    (∀ k, k ∈ keys (h.getDocDataForSaveOperation true)
        ↔ k ∈ h.docFieldKeysChanged ∧ k ∈ keys h.docFields)
    ∧ (∀ k v, (k, v) ∈ h.getDocDataForSaveOperation true →
        alookup h.docFields k = some v)
    ∧ (keys (h.getDocDataForSaveOperation true)).Nodup
    ∧ h.getDocDataForSaveOperation false = h.docFields :=
  ⟨fun k => getDocData_true_mem_keys h k,
   fun k v => getDocData_true_mem_val h k v,
   getDocData_true_nodup h,
   getDocData_false_eq h hnd⟩

theorem getDataForSave_characterization_witness :
    (keys wit6.docFields).Nodup ∧
    wit6.getDocDataForSaveOperation true = [("a", FSValue.prim 1)] ∧
    wit6.getDocDataForSaveOperation false = wit6.docFields :=
  ⟨by decide, by decide,
   (getDataForSave_characterization wit6 (by decide)).2.2.2⟩

/-- C7: `setField(name, value)` stores the field-deletion marker when the
value is the absent sentinel (instead of removing the key, so the save
payload carries the marker), and it always appends the name to the
changed markers. -/
theorem setField_sentinel_marker (h : FireDoc) (k : String) (v : Option FSValue) :
    (h.setField k v).docFieldKeysChanged = h.docFieldKeysChanged ++ [k]
    ∧ (v = none →
        alookup (h.setField k v).docFields k = some FSValue.deleteMarker
        ∧ k ∈ keys (h.setField k v).docFields
        ∧ alookup ((h.setField k v).getDocDataForSaveOperation true) k
            = some FSValue.deleteMarker) := by
  refine ⟨rfl, ?_⟩
  rintro rfl
  have hl : alookup (h.setField k none).docFields k = some FSValue.deleteMarker := by
    show alookup (objSet h.docFields k (storedSetValue none)) k = _
    rw [alookup_objSet_self]
    rfl
  refine ⟨hl, (alookup_isSome_iff_mem_keys _ _).mp (by rw [hl]; rfl), ?_⟩
  rw [getDocData_true_alookup (h.setField k none) k,
    if_pos ⟨List.mem_append_right _ (List.mem_cons_self _ _), by rw [hl]; rfl⟩]
  exact hl

theorem setField_sentinel_marker_witness :
    (wit4A.setField "a" none).docFieldKeysChanged = ["a"] ∧
    alookup (wit4A.setField "a" none).docFields "a" = some FSValue.deleteMarker ∧
    alookup ((wit4A.setField "a" none).getDocDataForSaveOperation true) "a"
      = some FSValue.deleteMarker := by
  obtain ⟨-, h2⟩ := setField_sentinel_marker wit4A "a" none
  obtain ⟨h3, -, h4⟩ := h2 rfl
  exact ⟨by decide, h3, h4⟩

/-- C8 counterexample: passing the absent sentinel to `setField` and
reading back yields the field-deletion marker, not the sentinel itself —
so the read value does not equal every written value as the claim states
it. -/
theorem setField_getField_undefined_cex :
    (wit4A.setField "a" none).getField "a" = some FSValue.deleteMarker ∧
    (wit4A.setField "a" none).getField "a" ≠ none := by
  refine ⟨by decide, by decide⟩

/-- C8 (amended): reading a field straight after writing it returns the
written value, except that a database-native timestamp reads back as its
normalized date and the absent sentinel reads back as the field-deletion
marker. -/
theorem setField_getField_roundtrip_amended (h : FireDoc) (k : String)
    (v : Option FSValue) :
    (h.setField k v).getField k =
      match v with
      | some (FSValue.timestamp t) => some (FSValue.date t)
      | none => some FSValue.deleteMarker
      | some x => some x := by
  have hl : alookup (h.setField k v).docFields k = some (storedSetValue v) := by
    show alookup (objSet h.docFields k (storedSetValue v)) k = _
    exact alookup_objSet_self _ _ _
  unfold FireDoc.getField
  rw [hl]
  cases v with
  | none => rfl
  | some x => cases x <;> rfl

/-- C9 counterexample: `getAllFields` returns the stored fields as they
are, so a handle whose fields hold a native timestamp exposes that native
representation through a public read operation. -/
theorem getAllFields_leaks_timestamp_cex :
    alookup wit9.getAllFields "t" = some (FSValue.timestamp 5) ∧
    wit9.getAllFields.any (fun p => FSValue.isNativeTs p.2) = true := by
  refine ⟨by decide, by decide⟩

/-- C9 (amended): only `getField` normalizes the database-native
timestamp representation to the generic date value; `getAllFields`
returns the stored fields unchanged (and so can expose native
timestamps), as does the save payload. -/
theorem reads_normalization_amended :
    (∀ (h : FireDoc) (k : String), noNativeTs (h.getField k) = true)
    ∧ ∀ h : FireDoc, h.getAllFields = h.docFields := by
  constructor
  · intro h k
    unfold FireDoc.getField
    cases halo : alookup h.docFields k with
    | none => rfl
    | some x => cases x <;> rfl
  · intro h
    rfl

/-- C10: constructing a handle with the empty string as id behaves
exactly like constructing without an id — the truthiness test sends it to
the fresh-allocation branch, which adopts the generated id, marks the
handle new, and binds the freshly allocated location rather than
the collection path joined to the empty id. -/
theorem construct_empty_id_like_missing (fs : Firestore) (d : Doc)
    (cp : MaybeCallable) :
    FireDoc.construct fs (some "") d cp = FireDoc.construct fs none d cp
    ∧ (FireDoc.construct fs (some "") d cp).isNewDocument = true
    ∧ (FireDoc.construct fs (some "") d cp).docRefId = fs.alloc (resolveMC cp)
    ∧ (FireDoc.construct fs (some "") d cp).docRef.path
        = resolveMC cp ++ "/" ++ fs.alloc (resolveMC cp) :=
  ⟨rfl, rfl, rfl, rfl⟩

/-- C3 counterexample: in `src/src/FireDoc.ts` the write is issued as
`set(docData, {merge: onlyChanges})`, so saving in overwrite mode replaces
the remote document: the remote field `c`, absent from the payload, is
destroyed by the save — the claimed always-merge behavior fails. -/
theorem save_overwrite_not_merge_cex :
    (∀ w ∈ (cexHandle.save SaveOption.overwrite).2, "c" ∉ keys w.payload) ∧
    alookup (docAt cexRemote "c/x") "c" = some (FSValue.prim 3) ∧
    alookup (docAt ((cexHandle.save SaveOption.overwrite).2.foldl applyWrite cexRemote)
      "c/x") "c" = none :=
  ⟨by decide, by decide, by decide⟩

/-- C3 (amended): the write issued by `FireDoc.save` is a merge-write —
leaving remote fields outside the payload unchanged — in the
changes modes (the `changes` string or boolean `true`), while its overwrite mode
passes `merge: false`; the `Main.save` variant of part_000 (and the
part_001 variant) issues a merge-write in every mode. -/
theorem save_merge_frame_amended (h : FireDoc) (opt : SaveOption)
    (remote : Remote) (k : String) :
    (optionOnlyChanges opt = true →
      k ∉ keys (h.getDocDataForSaveOperation true) →
      alookup (docAt ((h.save opt).2.foldl applyWrite remote) h.docRef.path) k
        = alookup (docAt remote h.docRef.path) k)
    ∧ (k ∉ keys (h.getDocDataForSaveOperation (optionOnlyChanges opt)) →
      alookup (docAt ((Main.save h opt).2.foldl applyWrite remote) h.docRef.path) k
        = alookup (docAt remote h.docRef.path) k) := by
  constructor
  · intro honly hk
    rw [fireDocSave_eq]
    by_cases hpe : (h.getDocDataForSaveOperation (optionOnlyChanges opt)).isEmpty
    · rw [if_pos hpe]
      rfl
    · rw [if_neg hpe]
      show alookup (docAt (applyWrite remote
        ⟨h.docRef.path, h.getDocDataForSaveOperation (optionOnlyChanges opt),
          optionOnlyChanges opt⟩) h.docRef.path) k = _
      rw [honly]
      exact applyWrite_merge_frame remote h.docRef.path _ k hk
  · intro hk
    rw [mainSave_eq]
    by_cases hpe : (h.getDocDataForSaveOperation (optionOnlyChanges opt)).isEmpty
    · rw [if_pos hpe]
      rfl
    · rw [if_neg hpe]
      show alookup (docAt (applyWrite remote
        ⟨h.docRef.path, h.getDocDataForSaveOperation (optionOnlyChanges opt),
          true⟩) h.docRef.path) k = _
      exact applyWrite_merge_frame remote h.docRef.path _ k hk

theorem save_merge_frame_amended_witness :
    (optionOnlyChanges SaveOption.changes = true ∧
      "c" ∉ keys (wit5b.getDocDataForSaveOperation true) ∧
      alookup (docAt ((wit5b.save SaveOption.changes).2.foldl applyWrite cexRemote)
        wit5b.docRef.path) "c" = alookup (docAt cexRemote wit5b.docRef.path) "c") ∧
    ("c" ∉ keys (wit5b.getDocDataForSaveOperation (optionOnlyChanges SaveOption.overwrite)) ∧
      alookup (docAt ((Main.save wit5b SaveOption.overwrite).2.foldl applyWrite cexRemote)
        wit5b.docRef.path) "c" = alookup (docAt cexRemote wit5b.docRef.path) "c") :=
  ⟨⟨rfl, by decide,
    (save_merge_frame_amended wit5b SaveOption.changes cexRemote "c").1 rfl (by decide)⟩,
   ⟨by decide,
    (save_merge_frame_amended wit5b SaveOption.overwrite cexRemote "c").2 (by decide)⟩⟩

/-- C2: a run of `withRawFilter` that accumulates the matched-id list M
returns `allPages` equal to the ceiling of `|M| / perPage` (characterized
by the two bounds, which pin the value down for positive `perPage`), and
its docs are exactly the handles for the slice
`M[(page-1)*perPage .. page*perPage)` — each constructed by id and
`load()`ed (fields equal the fetched data, markers clear); a filter whose
first window yields zero matches returns `{allPages: 0, docs: []}`. -/
theorem rawFilter_pagination_slice (fs : Firestore) (cp : MaybeCallable)
    (page perPage : Nat) (f : Doc → String → Bool)
    (hpp : 0 < perPage) (hpage : 1 ≤ page)
    (hids : ∀ x ∈ fs.listing (resolveMC cp), x.1 ≠ "") :
    (∀ r, withRawFilter fs cp page perPage f = Except.ok r →
      ((scanIds f (fs.listing (resolveMC cp))).length ≤ r.allPages * perPage
        ∧ r.allPages * perPage
            < (scanIds f (fs.listing (resolveMC cp))).length + perPage)
      ∧ r.docs.map FireDoc.docRefId
          = ((scanIds f (fs.listing (resolveMC cp))).drop ((page - 1) * perPage)).take
              perPage
      ∧ ∀ d ∈ r.docs, fs.fetch d.docRef.path = some d.docFields
          ∧ d.docFieldKeysChanged = [])
    ∧ (matchIds f (fs.listing (resolveMC cp)) 0 = [] →
        withRawFilter fs cp page perPage f = Except.ok ⟨0, []⟩) := by
  have hslice :
      ((scanIds f (fs.listing (resolveMC cp))).drop (perPage * (page - 1))).take
          (perPage * page - perPage * (page - 1))
        = ((scanIds f (fs.listing (resolveMC cp))).drop ((page - 1) * perPage)).take
            perPage := by
    obtain ⟨q, rfl⟩ : ∃ q, page = q + 1 := ⟨page - 1, by omega⟩
    simp only [Nat.add_sub_cancel]
    rw [Nat.mul_succ, Nat.add_sub_cancel_left, Nat.mul_comm]
  constructor
  · intro r hr
    rw [withRawFilter_eq] at hr
    cases hm : (((scanIds f (fs.listing (resolveMC cp))).drop
        (perPage * (page - 1))).take
        (perPage * page - perPage * (page - 1))).mapM (fun id =>
          (FireDoc.construct fs (some id) [] cp).load) with
    | error e =>
      rw [hm, exc_map_error] at hr
      cases hr
    | ok docs =>
      rw [hm, exc_map_ok] at hr
      cases hr
      have hne : ∀ i ∈ ((scanIds f (fs.listing (resolveMC cp))).drop
          (perPage * (page - 1))).take
          (perPage * page - perPage * (page - 1)), i ≠ "" := by
        intro i hi
        have hiM : i ∈ scanIds f (fs.listing (resolveMC cp)) :=
          List.mem_of_mem_drop (List.mem_of_mem_take hi)
        rcases List.mem_map.mp (scanIds_subset f _ i hiM) with ⟨x, hx, rfl⟩
        exact hids x hx
      obtain ⟨hmap, hloaded⟩ := mapM_load_ok fs cp _ docs hne hm
      refine ⟨jsCeilDiv_bounds _ _ hpp, ?_, hloaded⟩
      rw [hmap, hslice]
  · intro hma
    have hMnil : scanIds f (fs.listing (resolveMC cp)) = [] := by
      have he : scanIds f (fs.listing (resolveMC cp))
          = scanFromFuel f (fs.listing (resolveMC cp))
            ((fs.listing (resolveMC cp)).length / searchPerPage + 1 + 1) 0 := rfl
      rw [he, scanFromFuel_succ, hma]
      rfl
    have hzero : jsCeilDiv 0 perPage = 0 := by
      rw [jsCeilDiv_eq 0 perPage hpp]
      exact Nat.div_eq_of_lt (by omega)
    rw [withRawFilter_eq, hMnil, List.drop_nil, List.take_nil, List.mapM_nil,
      exc_pure_eq, exc_map_ok, List.length_nil, hzero]

theorem rawFilter_pagination_slice_witness :
    ((0 : Nat) < 2 ∧ (1 : Nat) ≤ 2 ∧
      (∀ x ∈ demoFs.listing (resolveMC (MaybeCallable.lit "c")), x.1 ≠ "")) ∧
    (withRawFilter demoFs (MaybeCallable.lit "c") 2 2 demoFilter
        = Except.ok demoResult ∧
      demoResult.allPages = 3 ∧
      demoResult.docs.map FireDoc.docRefId = ["30", "40"] ∧
      demoResult.docs.map FireDoc.docRefId
        = ((scanIds demoFilter (demoFs.listing (resolveMC (MaybeCallable.lit "c")))).drop
            ((2 - 1) * 2)).take 2) ∧
    withRawFilter demoFs (MaybeCallable.lit "c") 1 2 (fun _ _ => false)
      = Except.ok ⟨0, []⟩ := by
  have hids : ∀ x ∈ demoFs.listing (resolveMC (MaybeCallable.lit "c")), x.1 ≠ "" := by
    decide
  have hok : withRawFilter demoFs (MaybeCallable.lit "c") 2 2 demoFilter
      = Except.ok demoResult := rfl
  refine ⟨⟨by decide, by decide, hids⟩, ⟨hok, ?_, by decide, ?_⟩, ?_⟩
  · show jsCeilDiv 5 2 = 3
    rw [jsCeilDiv_eq 5 2 (by decide)]
  · exact ((rawFilter_pagination_slice demoFs (MaybeCallable.lit "c") 2 2 demoFilter
      (by decide) (by decide) hids).1 demoResult hok).2.1
  · exact (rawFilter_pagination_slice demoFs (MaybeCallable.lit "c") 1 2 (fun _ _ => false)
      (by decide) (by decide) hids).2 (by decide)

end Firedoc
